import Mathlib

/-!
Verification development for the `ircmessage` Go package: an incremental
scanner for RFC1459 IRC messages (with IRCv3 message tags) plus a
standalone prefix decomposer.  The Go source is embedded shallowly: the
`bufio.Reader`-backed scanner state becomes an explicit `ScanState`
record over `List Char`, each reader method becomes a state-passing
function, and byte counts are the sums of UTF-8 sizes of the characters
read.
-/

namespace IrcMessage

/-- Strings are modelled as lists of characters (Go strings are read
rune by rune by the scanner). -/
abbrev Str := List Char

/-- UTF-8 byte length of a character list, matching Go's byte counting
(`bufio.ReadRune` reports the byte size of each rune). -/
def utf8Len (l : Str) : Nat := (l.map Char.utf8Size).sum

/-- Constant `maxMessageSize = 512` from the source. -/
def maxMessageSize : Nat := 512

/-- Errors the scanner can produce: `io.EOF`, `io.ErrUnexpectedEOF` and
`ErrMessageMalformed`.  The underlying reader is a pure character list,
so no other I/O error can arise. -/
inductive RErr where
  | eof
  | unexpectedEof
  | malformed
deriving DecidableEq, Repr

/-- Decidable equality for `Except` results, so concrete runs of the
scanner can be checked by evaluation. -/
instance exceptDecEq {ε α : Type} [DecidableEq ε] [DecidableEq α] :
    DecidableEq (Except ε α) := fun x y =>
  match x, y with
  | .ok a, .ok b =>
    if h : a = b then .isTrue (by rw [h])
    else .isFalse (fun hx => h (Except.ok.inj hx))
  | .error a, .error b =>
    if h : a = b then .isTrue (by rw [h])
    else .isFalse (fun hx => h (Except.error.inj hx))
  | .ok _, .error _ => .isFalse (fun hx => Except.noConfusion hx)
  | .error _, .ok _ => .isFalse (fun hx => Except.noConfusion hx)

/-- The mutable scanner fields relevant to reading: the remaining input
of the underlying reader, `rawBuf`, `currentMsgSize` (here `msgSize`),
`lastRuneSize` (here `lastSize`), and the one-rune pushback state of the
`bufio.Reader`: `canUnread` is whether `UnreadRune` would succeed, and
`lastChar` the rune it would push back. -/
structure ScanState where
  input : Str
  rawBuf : Str
  msgSize : Nat
  lastSize : Nat
  lastChar : Char
  canUnread : Bool
deriving DecidableEq, Repr

/-- A fresh scanner positioned on input `l` (as built by `NewScanner`). -/
def mkState (l : Str) : ScanState :=
  { input := l, rawBuf := [], msgSize := 0, lastSize := 0,
    lastChar := ' ', canUnread := false }

/-- `Scanner.read`: reads one rune, records its size, appends it to
`rawBuf`, and fails with `ErrMessageMalformed` when `currentMsgSize`
exceeds `maxMessageSize` (the rune is consumed first, as in the Go
code, which increments and appends before the size check). -/
def read (s : ScanState) : Except RErr Char × ScanState :=
  match s.input with
  | [] => (.error .eof, { s with canUnread := false })
  | c :: rest =>
    if s.msgSize + c.utf8Size > maxMessageSize then
      (.error .malformed,
        { input := rest, rawBuf := s.rawBuf ++ [c],
          msgSize := s.msgSize + c.utf8Size, lastSize := c.utf8Size,
          lastChar := c, canUnread := true })
    else
      (.ok c,
        { input := rest, rawBuf := s.rawBuf ++ [c],
          msgSize := s.msgSize + c.utf8Size, lastSize := c.utf8Size,
          lastChar := c, canUnread := true })

/-- `Scanner.unread`: rolls back one rune.  `bufio.UnreadRune` fails
when the previous operation was not a successful `ReadRune`; in that
case the Go callers all discard the error and the state is unchanged. -/
def unread (s : ScanState) : ScanState :=
  if s.canUnread then
    { s with input := s.lastChar :: s.input,
             rawBuf := s.rawBuf.dropLast,
             msgSize := s.msgSize - s.lastSize,
             canUnread := false }
  else s

/-- The loop of `Scanner.skipSpace` with an explicit iteration budget.
Each iteration consumes one input character, so any `fuel` larger than
the remaining input length is never exhausted; the wrappers below
always supply such a budget, making the zero-fuel branch unreachable. -/
def skipSpaceF : Nat → ScanState → ScanState
  | 0, s => s
  | fuel + 1, s =>
    match read s with
    | (.ok c, s') => if c = ' ' then skipSpaceF fuel s' else unread s'
    | (.error _, s') => unread s'

/-- `Scanner.skipSpace`: reads until a non-space (or a read failure,
whose error is discarded) and pushes the last character back. -/
def skipSpace (s : ScanState) : ScanState := skipSpaceF (s.input.length + 1) s

/-- `strings.Split` on a one-character separator: splitting the empty
string gives `[[]]`, and separators at the ends give empty fields. -/
def splitOnCh (sep : Char) : Str → List Str
  | [] => [[]]
  | c :: rest =>
    if c = sep then [] :: splitOnCh sep rest
    else
      match splitOnCh sep rest with
      | [] => [[c]]
      | t :: ts => (c :: t) :: ts

/-- `strings.Join` with a single-space separator. -/
def joinSpace : List Str → Str
  | [] => []
  | [x] => x
  | x :: y :: xs => x ++ ' ' :: joinSpace (y :: xs)

/-- Tag maps: Go's `map[string]string` modelled as an association list
whose assignment overwrites an existing binding in place (observational
behaviour of a Go map, iteration order aside). -/
abbrev TagMap := List (Str × Str)

/-- Go map assignment `m[k] = v`. -/
def tagInsert (m : TagMap) (k v : Str) : TagMap :=
  if m.any (fun p => p.1 = k) then
    m.map (fun p => if p.1 = k then (k, v) else p)
  else m ++ [(k, v)]

/-- The rune-accumulating loop of `Scanner.readTags`: read until a
space; `io.EOF` becomes `io.ErrUnexpectedEOF`; writing is guarded by
the transient buffer's own 512-byte cap. -/
def readTagStringF : Nat → ScanState → Str → Except RErr Str × ScanState
  | 0, s, buf => (.ok buf, s)
  | fuel + 1, s, buf =>
    match read s with
    | (.error .eof, s') => (.error .unexpectedEof, s')
    | (.error e, s') => (.error e, s')
    | (.ok c, s') =>
      if c = ' ' then (.ok buf, s')
      else if utf8Len buf ≥ maxMessageSize then (.error .malformed, s')
      else readTagStringF fuel s' (buf ++ [c])

/-- The accumulating loop of `Scanner.readTags`, started with an ample
iteration budget. -/
def readTagString (s : ScanState) (buf : Str) : Except RErr Str × ScanState :=
  readTagStringF (s.input.length + 1) s buf

/-- The token loop of `Scanner.readTags`: a token containing `=` is
split on `=` and must give exactly two parts, otherwise the scan is
malformed; a token without `=` maps to the empty value. -/
def buildTagMap : List Str → TagMap → Except RErr TagMap
  | [], m => .ok m
  | v :: rest, m =>
    if '=' ∈ v then
      match splitOnCh '=' v with
      | [k, val] => buildTagMap rest (tagInsert m k val)
      | _ => .error .malformed
    else buildTagMap rest (tagInsert m v [])

/-- `Scanner.readTags`.  When the accumulated text contains no
semicolon the Go code appends it to a local `tags` slice that is never
read again, so the returned map stays empty; only a text containing a
semicolon is split into entries. -/
def readTags (s : ScanState) : Except RErr TagMap × ScanState :=
  match readTagString s [] with
  | (.error e, s') => (.error e, s')
  | (.ok buf, s') =>
    if ';' ∈ buf then
      match buildTagMap (splitOnCh ';' buf) [] with
      | .error e => (.error e, s')
      | .ok m => (.ok m, skipSpace s')
    else (.ok [], skipSpace s')

/-- The rune loop of `Scanner.readPrefix`: read until a space. -/
def readPrefixLoopF : Nat → ScanState → Str → Except RErr Str × ScanState
  | 0, s, buf => (.ok buf, s)
  | fuel + 1, s, buf =>
    match read s with
    | (.error .eof, s') => (.error .unexpectedEof, s')
    | (.error e, s') => (.error e, s')
    | (.ok c, s') =>
      if c = ' ' then (.ok buf, s')
      else readPrefixLoopF fuel s' (buf ++ [c])

/-- The accumulating loop of `Scanner.readPrefix`, started with an
ample iteration budget. -/
def readPrefixLoop (s : ScanState) (buf : Str) : Except RErr Str × ScanState :=
  readPrefixLoopF (s.input.length + 1) s buf

/-- `Scanner.readPrefix`: the accumulated text, then trailing spaces
are skipped. -/
def readPrefix (s : ScanState) : Except RErr Str × ScanState :=
  match readPrefixLoop s [] with
  | (.error e, s') => (.error e, s')
  | (.ok buf, s') => (.ok buf, skipSpace s')

/-- The rune loop of `Scanner.readCommand`: read until a space
(consumed) or a carriage return (pushed back). -/
def readCommandLoopF : Nat → ScanState → Str → Except RErr Str × ScanState
  | 0, s, buf => (.ok buf, s)
  | fuel + 1, s, buf =>
    match read s with
    | (.error .eof, s') => (.error .unexpectedEof, s')
    | (.error e, s') => (.error e, s')
    | (.ok c, s') =>
      if c = ' ' then (.ok buf, s')
      else if c = '\r' then (.ok buf, unread s')
      else readCommandLoopF fuel s' (buf ++ [c])

/-- The accumulating loop of `Scanner.readCommand`, started with an
ample iteration budget. -/
def readCommandLoop (s : ScanState) (buf : Str) : Except RErr Str × ScanState :=
  readCommandLoopF (s.input.length + 1) s buf

/-- `Scanner.readCommand`: the accumulated text, then trailing spaces
are skipped. -/
def readCommand (s : ScanState) : Except RErr Str × ScanState :=
  match readCommandLoop s [] with
  | (.error e, s') => (.error e, s')
  | (.ok buf, s') => (.ok buf, skipSpace s')

/-- `Scanner.isLineEnd`: peeks for `\r\n`.  On `\r` followed by a
non-`\n` character the code unreads twice in a row; the second unread
fails inside `bufio` and is discarded, so only the second character is
actually pushed back. -/
def isLineEnd (s : ScanState) : (Bool × Option RErr) × ScanState :=
  match read s with
  | (.error e, s') => ((false, some e), s')
  | (.ok c, s') =>
    if c = '\r' then
      match read s' with
      | (.error e, s2) => ((false, some e), s2)
      | (.ok c2, s2) =>
        if c2 = '\n' then ((true, none), s2)
        else ((false, none), unread (unread s2))
    else ((false, none), unread s')

/-- The rune loop of `Scanner.readParams`: accumulate until the
line-end detector reports termination; the detector's error, if any, is
discarded, as in the Go code. -/
def readParamsLoopF : Nat → ScanState → Str → Except RErr Str × ScanState
  | 0, s, buf => (.ok buf, s)
  | fuel + 1, s, buf =>
    match isLineEnd s with
    | ((true, _), s') => (.ok buf, s')
    | ((false, _), s') =>
      match read s' with
      | (.error .eof, s2) => (.error .unexpectedEof, s2)
      | (.error e, s2) => (.error e, s2)
      | (.ok c, s2) => readParamsLoopF fuel s2 (buf ++ [c])

/-- The accumulating loop of `Scanner.readParams`, started with an
ample iteration budget (each iteration consumes at least one input
character). -/
def readParamsLoop (s : ScanState) (buf : Str) : Except RErr Str × ScanState :=
  readParamsLoopF (s.input.length + 1) s buf

/-- Whether a token starts with the trailing-parameter marker
(`strings.HasPrefix(v, ":")`). -/
def hasColonPrefix (v : Str) : Bool :=
  match v with
  | ':' :: _ => true
  | _ => false

/-- The token walk of `Scanner.readParams`: the first token starting
with `:` is stripped of the marker and joined with all later tokens
into a single final parameter; earlier non-empty tokens stand alone and
empty tokens are dropped. -/
def paramWalk : List Str → List Str
  | [] => []
  | v :: rest =>
    if hasColonPrefix v then [joinSpace (v.tail :: rest)]
    else if v = [] then paramWalk rest
    else v :: paramWalk rest

/-- `Scanner.readParams`. -/
def readParams (s : ScanState) : Except RErr (List Str) × ScanState :=
  match readParamsLoop s [] with
  | (.error e, s') => (.error e, s')
  | (.ok buf, s') => (.ok (paramWalk (splitOnCh ' ' buf)), s')

/-- A parsed IRC message (`ircmessage.Message`).  `Tags` is `none` for
the `nil` map of a message without a tag block. -/
structure Message where
  Raw : Str
  Tags : Option TagMap
  Prefix : Str
  Command : Str
  Params : List Str
deriving DecidableEq, Repr

/-- The zero `Message` value returned on every error path of `next`. -/
def zeroMessage : Message :=
  { Raw := [], Tags := none, Prefix := [], Command := [], Params := [] }

/-- `Scanner.next`: one scan step.  Its Go result pair
`(Message, error)` is modelled as `Message × Option RErr`; the scanner
state after the step is returned alongside. -/
def nextMsg (s0 : ScanState) : (Message × Option RErr) × ScanState :=
  match read { s0 with rawBuf := [], msgSize := 0 } with
  | (.error e, s) => ((zeroMessage, some e), s)
  | (.ok ch0, s) =>
    match (if ch0 = '@' then
             match readTags s with
             | (.error e, t) => (.error e, t)
             | (.ok tags, t) =>
               match read { t with msgSize := 0 } with
               | (.error .eof, t2) => (.error RErr.unexpectedEof, t2)
               | (.error e, t2) => (.error e, t2)
               | (.ok ch, t2) => (.ok (some tags, ch), t2)
           else ((.ok (none, ch0) : Except RErr (Option TagMap × Char)), s)) with
    | (.error e, s) => ((zeroMessage, some e), s)
    | (.ok (tagsOpt, ch1), s) =>
      match (if ch1 = ':' then readPrefix s
             else ((.ok ([] : Str) : Except RErr Str), unread s)) with
      | (.error e, s) => ((zeroMessage, some e), s)
      | (.ok pfx, s) =>
        match readCommand s with
        | (.error e, s) => ((zeroMessage, some e), s)
        | (.ok cmd, s) =>
          match isLineEnd s with
          | ((_, some e), s) => ((zeroMessage, some e), s)
          | ((true, none), s) =>
            (({ Raw := s.rawBuf, Tags := tagsOpt, Prefix := pfx,
                Command := cmd, Params := [] }, none), s)
          | ((false, none), s) =>
            match readParams (unread s) with
            | (.error e, s) => ((zeroMessage, some e), s)
            | (.ok ps, s) =>
              (({ Raw := s.rawBuf, Tags := tagsOpt, Prefix := pfx,
                  Command := cmd, Params := ps }, none), s)

/-- The `Scanner`'s bookkeeping around `next`: the underlying reading
state, the last parsed message, and the first error encountered. -/
structure ScannerState where
  inner : ScanState
  message : Message
  err : Option RErr
deriving DecidableEq, Repr

/-- `NewScanner` on input `l`. -/
def NewScanner (l : Str) : ScannerState :=
  { inner := mkState l, message := zeroMessage, err := none }

/-- `Scanner.Scan`: refuses to advance once an error is recorded;
otherwise runs `next`, recording either the message or the error. -/
def Scan (st : ScannerState) : Bool × ScannerState :=
  match st.err with
  | some _ => (false, st)
  | none =>
    match nextMsg st.inner with
    | ((msg, none), inner') =>
      (true, { st with inner := inner', message := msg })
    | ((_, some e), inner') =>
      (false, { st with inner := inner', err := some e })

/-- `Scanner.Message`. -/
def MessageOf (st : ScannerState) : Message := st.message

/-- `Scanner.Err`: the first non-EOF error. -/
def Err (st : ScannerState) : Option RErr :=
  match st.err with
  | none => none
  | some .eof => none
  | some e => some e

/-- A parsed IRC message prefix (`ircmessage.Prefix`). -/
structure Prefix where
  Raw : Str
  IsServer : Bool
  Nickname : Str
  User : Str
  Host : Str
deriving DecidableEq, Repr

/-- First occurrence index of a character, as `strings.Index` but
`Option`-valued. -/
def indexOf? (l : Str) (c : Char) : Option Nat :=
  match l with
  | [] => none
  | a :: rest => if a = c then some 0 else (indexOf? rest c).map (· + 1)

/-- `strings.Index(l, c) + 1`: zero when the character is absent. -/
def idx1 (l : Str) (c : Char) : Nat :=
  match indexOf? l c with
  | some i => i + 1
  | none => 0

/-- `ircmessage.ParsePrefix`: decomposes a prefix string, or yields
`none` for an empty string or one starting with `!` or `@`. -/
def ParsePrefix (inp : Str) : Option Prefix :=
  if inp.length = 0 then none
  else if inp.head? = some '!' ∨ inp.head? = some '@' then none
  else
    let dpos := idx1 inp '.'
    let upos := idx1 inp '!'
    let hpos := (match indexOf? (inp.drop upos) '@' with
                 | some j => j + 1
                 | none => 0) + upos
    if upos > 0 then
      if hpos > 0 ∧ upos < hpos then
        some { Raw := inp, IsServer := false,
               Nickname := inp.take (upos - 1),
               User := (inp.drop upos).take (hpos - 1 - upos),
               Host := inp.drop hpos }
      else
        some { Raw := inp, IsServer := false,
               Nickname := inp.take (upos - 1),
               User := inp.drop upos, Host := [] }
    else if hpos > 0 then
      some { Raw := inp, IsServer := false,
             Nickname := inp.take (hpos - 1),
             User := [], Host := inp.drop hpos }
    else if dpos > 0 then
      some { Raw := inp, IsServer := true,
             Nickname := [], User := [], Host := inp }
    else
      some { Raw := inp, IsServer := false,
             Nickname := inp, User := [], Host := [] }

/-! ### Spec-side restatements

These definitions follow the specification's wording (not the source)
and are compared with the source-translated functions by refinement
theorems. -/

/-- The prefix decomposition as the specification words it: no result
for an empty input or a leading `!`/`@`; with a `!`, nickname is the
text before the first `!` and an `@` after it splits user from host;
with only an `@`, nickname/host split there; else a `.` anywhere makes
the whole string a server host, and otherwise it is a bare nickname. -/
def specParsePrefix (inp : Str) : Option Prefix :=
  if inp = [] then none
  else if inp.head? = some '!' ∨ inp.head? = some '@' then none
  else
    match indexOf? inp '!' with
    | some i =>
      match indexOf? (inp.drop (i + 1)) '@' with
      | some j =>
        some { Raw := inp, IsServer := false, Nickname := inp.take i,
               User := (inp.drop (i + 1)).take j,
               Host := (inp.drop (i + 1)).drop (j + 1) }
      | none =>
        some { Raw := inp, IsServer := false, Nickname := inp.take i,
               User := inp.drop (i + 1), Host := [] }
    | none =>
      match indexOf? inp '@' with
      | some i =>
        some { Raw := inp, IsServer := false, Nickname := inp.take i,
               User := [], Host := inp.drop (i + 1) }
      | none =>
        if '.' ∈ inp then
          some { Raw := inp, IsServer := true, Nickname := [], User := [],
                 Host := inp }
        else
          some { Raw := inp, IsServer := false, Nickname := inp, User := [],
                 Host := [] }

/-- The parameter-token walk as the specification words it: non-empty
tokens before the first `:`-token each stand alone, empty tokens are
dropped, and the first `:`-token, stripped of its marker, is rejoined
with all later tokens into the one final parameter. -/
def specParamWalk (toks : List Str) : List Str :=
  (toks.takeWhile (fun t => !(hasColonPrefix t))).filter
      (fun t => !(t.isEmpty)) ++
    (match toks.dropWhile (fun t => !(hasColonPrefix t)) with
     | [] => []
     | t :: rest => [joinSpace (t.tail :: rest)])

/-- State well-formedness: when the one-rune pushback is armed, the
last-read bookkeeping agrees with the raw buffer and the size count
(established by every successful read, and preserved since). -/
def WF (s : ScanState) : Prop :=
  s.canUnread = true →
    s.rawBuf.getLast? = some s.lastChar ∧
    s.lastSize = s.lastChar.utf8Size ∧
    s.lastSize ≤ s.msgSize

/-- Relation between scanner states across reader calls: the text
consumed so far is tracked exactly by `rawBuf` (concatenating it with
the remaining input recovers the stream), and the byte count moves in
lockstep with the raw buffer. -/
structure Steps (s t : ScanState) : Prop where
  wf : WF t
  tr : t.rawBuf ++ t.input = s.rawBuf ++ s.input
  bd : utf8Len t.rawBuf + s.msgSize = utf8Len s.rawBuf + t.msgSize

theorem read_ok_input {s : ScanState} {c : Char} {s' : ScanState}
    (h : read s = (.ok c, s')) : s.input = c :: s'.input := by
  unfold read at h
  cases hi : s.input with
  | nil => rw [hi] at h; simp at h
  | cons a rest =>
    rw [hi] at h
    by_cases hsz : s.msgSize + a.utf8Size > maxMessageSize
    · simp [hsz] at h
    · simp [hsz] at h
      obtain ⟨h1, h2⟩ := h
      subst h1
      rw [← h2]

theorem read_ok_length {s : ScanState} {c : Char} {s' : ScanState}
    (h : read s = (.ok c, s')) : s'.input.length < s.input.length := by
  rw [read_ok_input h]
  simp

theorem read_malformed_length {s : ScanState} {s' : ScanState}
    (h : read s = (.error .malformed, s')) :
    s'.input.length + 1 = s.input.length := by
  unfold read at h
  cases hi : s.input with
  | nil => rw [hi] at h; simp at h
  | cons a rest =>
    rw [hi] at h
    by_cases hsz : s.msgSize + a.utf8Size > maxMessageSize
    · simp [hsz] at h
      rw [← h]
      simp
    · simp [hsz] at h

theorem read_eof_input {s : ScanState} {s' : ScanState}
    (h : read s = (.error .eof, s')) : s'.input = s.input := by
  unfold read at h
  cases hi : s.input with
  | nil =>
    rw [hi] at h
    simp at h
    rw [← h]
  | cons a rest =>
    rw [hi] at h
    by_cases hsz : s.msgSize + a.utf8Size > maxMessageSize
    · simp [hsz] at h
    · simp [hsz] at h

theorem unread_length (s : ScanState) :
    (unread s).input.length ≤ s.input.length + 1 := by
  unfold unread
  split <;> simp

theorem isLineEnd_not_end_length {s : ScanState} {e : Option RErr}
    {s' : ScanState} (h : isLineEnd s = ((false, e), s')) :
    s'.input.length ≤ s.input.length := by
  unfold isLineEnd at h
  cases h1 : read s with
  | mk r1 t1 =>
    cases r1 with
    | error e1 =>
      rw [h1] at h
      simp at h
      obtain ⟨-, h2⟩ := h
      subst h2
      cases e1 with
      | eof => rw [read_eof_input h1]
      | unexpectedEof =>
        -- `read` never returns `unexpectedEof`; still, a length bound holds
        unfold read at h1
        cases hi : s.input with
        | nil => rw [hi] at h1; simp at h1
        | cons a rest =>
          rw [hi] at h1
          by_cases hsz : s.msgSize + a.utf8Size > maxMessageSize
          · simp [hsz] at h1
          · simp [hsz] at h1
      | malformed =>
        have := read_malformed_length h1
        omega
    | ok c1 =>
      rw [h1] at h
      simp at h
      by_cases hc1 : c1 = '\r'
      · rw [if_pos hc1] at h
        cases h2 : read t1 with
        | mk r2 t2 =>
          cases r2 with
          | error e2 =>
            rw [h2] at h
            simp at h
            obtain ⟨-, h3⟩ := h
            subst h3
            have l1 := read_ok_length h1
            have : t2.input.length ≤ t1.input.length := by
              cases e2 with
              | eof => rw [read_eof_input h2]
              | unexpectedEof =>
                unfold read at h2
                cases hi : t1.input with
                | nil => rw [hi] at h2; simp at h2
                | cons a rest =>
                  rw [hi] at h2
                  by_cases hsz : t1.msgSize + a.utf8Size > maxMessageSize
                  · simp [hsz] at h2
                  · simp [hsz] at h2
              | malformed =>
                have := read_malformed_length h2
                omega
            omega
          | ok c2 =>
            rw [h2] at h
            simp at h
            by_cases hc2 : c2 = '\n'
            · rw [if_pos hc2] at h
              simp at h
            · rw [if_neg hc2] at h
              simp at h
              obtain ⟨-, h3⟩ := h
              subst h3
              have l1 := read_ok_length h1
              have l2 := read_ok_length h2
              have u1 := unread_length t2
              have u2 := unread_length (unread t2)
              omega
      · rw [if_neg hc1] at h
        simp at h
        obtain ⟨-, h2⟩ := h
        subst h2
        have l1 := read_ok_length h1
        have u1 := unread_length t1
        omega

theorem indexOf?_isSome_iff_mem (c : Char) :
    ∀ l : Str, (indexOf? l c).isSome ↔ c ∈ l := by
  intro l
  induction l with
  | nil => simp [indexOf?]
  | cons a rest ih =>
    by_cases ha : a = c
    · simp [indexOf?, ha]
    · simp only [indexOf?, if_neg ha, List.mem_cons]
      cases h : indexOf? rest c with
      | none =>
        rw [h] at ih
        simp only [Option.isSome_none, Bool.false_eq_true, false_iff] at ih
        simp only [Option.map_none', Option.isSome_none, Bool.false_eq_true,
          false_iff]
        rintro (h' | h')
        · exact ha h'.symm
        · exact ih h'
      | some i =>
        rw [h] at ih
        simp only [Option.isSome_some, true_iff] at ih
        simp only [Option.map_some', Option.isSome_some, true_iff]
        exact Or.inr ih

theorem paramWalk_eq_spec : ∀ toks : List Str, paramWalk toks = specParamWalk toks := by
  intro toks
  induction toks with
  | nil => rfl
  | cons v rest ih =>
    cases hcv : hasColonPrefix v with
    | true => simp [paramWalk, specParamWalk, hcv]
    | false =>
      by_cases hv : v = []
      · subst hv
        simp [paramWalk, specParamWalk, List.takeWhile_cons, List.dropWhile_cons,
          List.filter_cons, hcv, ih]
      · simp [paramWalk, specParamWalk, List.takeWhile_cons, List.dropWhile_cons,
          List.filter_cons, hcv, hv, ih, List.isEmpty_iff]

theorem ParsePrefix_eq_spec (inp : Str) : ParsePrefix inp = specParsePrefix inp := by
  unfold ParsePrefix specParsePrefix
  by_cases h0 : inp.length = 0
  · rw [if_pos h0, if_pos (List.length_eq_zero.mp h0)]
  · have hne : inp ≠ [] := by
      intro h
      exact h0 (by simp [h])
    rw [if_neg h0, if_neg hne]
    by_cases hh : inp.head? = some '!' ∨ inp.head? = some '@'
    · rw [if_pos hh, if_pos hh]
    · rw [if_neg hh, if_neg hh]
      cases hu : indexOf? inp '!' with
      | some i =>
        simp only [idx1, hu]
        cases hj : indexOf? (inp.drop (i + 1)) '@' with
        | some j =>
          simp only [hj]
          rw [if_pos (by omega : i + 1 > 0)]
          rw [if_pos (by constructor <;> omega : j + 1 + (i + 1) > 0 ∧ i + 1 < j + 1 + (i + 1))]
          have e1 : i + 1 - 1 = i := by omega
          have e2 : j + 1 + (i + 1) - 1 - (i + 1) = j := by omega
          rw [e1, e2]
          have e4 : inp.drop (j + 1 + (i + 1)) = (inp.drop (i + 1)).drop (j + 1) := by
            rw [List.drop_drop]
            congr 1
            omega
          rw [e4]
        | none =>
          simp only [hj]
          rw [if_pos (by omega : i + 1 > 0)]
          rw [if_neg (by omega : ¬(0 + (i + 1) > 0 ∧ i + 1 < 0 + (i + 1)))]
          have e1 : i + 1 - 1 = i := by omega
          rw [e1]
      | none =>
        simp only [idx1, hu, List.drop_zero]
        cases hv : indexOf? inp '@' with
        | some i =>
          simp only [hv]
          rw [if_neg (by omega : ¬(0 : Nat) > 0)]
          rw [if_pos (by omega : i + 1 + 0 > 0)]
          have e1 : i + 1 + 0 - 1 = i := by omega
          have e2 : i + 1 + 0 = i + 1 := by omega
          rw [e1, e2]
        | none =>
          simp only [hv]
          rw [if_neg (by omega : ¬(0 : Nat) > 0)]
          rw [if_neg (by omega : ¬(0 + 0 : Nat) > 0)]
          by_cases hmem : '.' ∈ inp
          · obtain ⟨d, hd⟩ := Option.isSome_iff_exists.mp
              ((indexOf?_isSome_iff_mem '.' inp).mpr hmem)
            simp only [hd]
            rw [if_pos (by omega : d + 1 > 0), if_pos hmem]
          · have hd : indexOf? inp '.' = none := by
              cases h' : indexOf? inp '.' with
              | none => rfl
              | some d =>
                exact absurd ((indexOf?_isSome_iff_mem '.' inp).mp
                  (by rw [h']; rfl)) hmem
            simp only [hd]
            rw [if_neg (by omega : ¬(0 : Nat) > 0), if_neg hmem]

theorem nextMsg_err_zero {s : ScanState} {m : Message} {e : RErr} {s2 : ScanState}
    (h : nextMsg s = ((m, some e), s2)) : m = zeroMessage := by
  unfold nextMsg at h
  repeat' split at h
  all_goals try (injection h with h1 h2; injection h1 with h3 h4; simp_all)

theorem readCommandLoopF_ok_val :
    ∀ (fuel : Nat) (s : ScanState) (buf v : Str),
      (readCommandLoopF fuel s buf).1 = .ok v →
      s.input.length < fuel →
      v = buf ++ s.input.takeWhile (fun c => !(c == ' ' || c == '\r')) := by
  intro fuel
  induction fuel with
  | zero =>
    intro s buf v h hl
    omega
  | succ fuel ih =>
    intro s buf v h hl
    unfold readCommandLoopF at h
    cases hi : s.input with
    | nil =>
      rw [show read s = (.error .eof, { s with canUnread := false }) from by
        unfold read; rw [hi]] at h
      simp at h
    | cons c rest =>
      by_cases hsz : s.msgSize + c.utf8Size > maxMessageSize
      · rw [show read s = (.error .malformed,
          { input := rest, rawBuf := s.rawBuf ++ [c],
            msgSize := s.msgSize + c.utf8Size, lastSize := c.utf8Size,
            lastChar := c, canUnread := true }) from by
          unfold read; rw [hi]; simp [hsz]] at h
        simp at h
      · rw [show read s = (.ok c,
          { input := rest, rawBuf := s.rawBuf ++ [c],
            msgSize := s.msgSize + c.utf8Size, lastSize := c.utf8Size,
            lastChar := c, canUnread := true }) from by
          unfold read; rw [hi]; simp [hsz]] at h
        simp only at h
        rw [List.takeWhile_cons]
        by_cases hsp : c = ' '
        · rw [if_pos hsp] at h
          simp only at h
          subst hsp
          simp at h ⊢
          exact h.symm
        · rw [if_neg hsp] at h
          by_cases hcr : c = '\r'
          · rw [if_pos hcr] at h
            simp only at h
            subst hcr
            simp at h ⊢
            exact h.symm
          · rw [if_neg hcr] at h
            have hb : (!(c == ' ' || c == '\r')) = true := by
              simp [hsp, hcr]
            rw [hb]
            simp only
            have := ih _ _ _ h (by
              rw [hi] at hl
              simp only [List.length_cons] at hl
              simp only
              omega)
            rw [this]
            simp

theorem Scan_err {st : ScannerState} {e : RErr} (h : st.err = some e) :
    Scan st = (false, st) := by
  unfold Scan
  rw [h]

theorem Scan_ok {st : ScannerState} {m : Message} {i : ScanState}
    (h : st.err = none) (hn : nextMsg st.inner = ((m, none), i)) :
    Scan st = (true, { st with inner := i, message := m }) := by
  unfold Scan
  rw [h, hn]

theorem Scan_fail {st : ScannerState} {m : Message} {e : RErr} {i : ScanState}
    (h : st.err = none) (hn : nextMsg st.inner = ((m, some e), i)) :
    Scan st = (false, { st with inner := i, err := some e }) := by
  unfold Scan
  rw [h, hn]

/-- C10: when a scan step fails, `next` returns the zero `Message`
alongside the error, and a failing `Scan` leaves the stored message
unchanged (so `Message()` keeps returning the previous message, or the
zero message when nothing was ever scanned). -/
theorem C10_thm :
    (∀ (s : ScanState) (e : RErr), (nextMsg s).1.2 = some e →
      (nextMsg s).1.1 = zeroMessage) ∧
    (∀ st : ScannerState, (Scan st).1 = false →
      (Scan st).2.message = st.message) := by
  constructor
  · intro s e h
    rcases hp : nextMsg s with ⟨⟨m', e'⟩, s2⟩
    rw [hp] at h
    simp only at h ⊢
    subst h
    exact nextMsg_err_zero hp
  · intro st h
    rcases he : st.err with _ | e
    · rcases hp : nextMsg st.inner with ⟨⟨m', e'⟩, i⟩
      cases e' with
      | none =>
        rw [Scan_ok he hp] at h
        simp at h
      | some e2 =>
        rw [Scan_fail he hp]
    · rw [Scan_err he]

/-- C10 witness: the theorem applied to the concrete failing input
`"FO"` (stream ends mid-command). -/
theorem C10_witness :
    (nextMsg (mkState "FO".toList)).1.1 = zeroMessage :=
  C10_thm.1 (mkState "FO".toList) RErr.unexpectedEof (by decide)

/-- C9: after any failure the Scanner is terminal: with an error
recorded, `Scan` returns false and leaves the whole state unchanged (so
iterating `Scan` any number of times changes nothing and no further
message is emitted), and whenever `Scan` returns false an error has
been recorded. -/
theorem C9_thm :
    (∀ st : ScannerState, st.err.isSome → Scan st = (false, st)) ∧
    (∀ st : ScannerState, (Scan st).1 = false → (Scan st).2.err.isSome) ∧
    (∀ (st : ScannerState) (n : Nat), st.err.isSome →
      (fun t => (Scan t).2)^[n] st = st) := by
  have h1 : ∀ st : ScannerState, st.err.isSome → Scan st = (false, st) := by
    intro st h
    rcases he : st.err with _ | e
    · rw [he] at h
      simp at h
    · exact Scan_err he
  refine ⟨h1, ?_, ?_⟩
  · intro st h
    rcases he : st.err with _ | e
    · rcases hp : nextMsg st.inner with ⟨⟨m', e'⟩, i⟩
      cases e' with
      | none =>
        rw [Scan_ok he hp] at h
        simp at h
      | some e2 =>
        rw [Scan_fail he hp]
        rfl
    · rw [Scan_err he]
      simp [he]
  · intro st n h
    induction n with
    | zero => rfl
    | succ n ih =>
      rw [Function.iterate_succ_apply, h1 st h]
      exact ih

/-- C9 witness: a Scanner with a recorded malformed-message failure
refuses to advance and is unchanged by `Scan`. -/
theorem C9_witness :
    Scan { inner := mkState [], message := zeroMessage,
           err := some RErr.malformed } =
      (false, { inner := mkState [], message := zeroMessage,
                err := some RErr.malformed }) :=
  C9_thm.1 _ (by decide)

/-- C2: evaluation of the tag reader at the divergence point: a tag
block whose text contains no semicolon (here `"@test=super "`) yields
an *empty* tag map, because the Go code puts the semicolon-free text
into a dead local slice; the claim's own semicolon example
`"@test=super;single "` decodes to the claimed two entries. -/
theorem C2_thm :
    (nextMsg (mkState "@test=super FOO\r\n".toList)).1 =
      ({ Raw := "@test=super FOO\r\n".toList, Tags := some [], Prefix := [],
         Command := "FOO".toList, Params := [] }, none) ∧
    (nextMsg (mkState "@test=super;single FOO\r\n".toList)).1 =
      ({ Raw := "@test=super;single FOO\r\n".toList,
         Tags := some [("test".toList, "super".toList),
                       ("single".toList, [])],
         Prefix := [], Command := "FOO".toList, Params := [] }, none) :=
  ⟨by decide, by decide⟩

/-- C3: `ParsePrefix` implements exactly the specification's case
analysis (refinement against the spec-worded `specParsePrefix`), and
the claim's table of concrete examples holds. -/
theorem C3_thm :
    (∀ inp : Str, ParsePrefix inp = specParsePrefix inp) ∧
    ParsePrefix "nick".toList =
      some { Raw := "nick".toList, IsServer := false,
             Nickname := "nick".toList, User := [], Host := [] } ∧
    ParsePrefix "nick!user".toList =
      some { Raw := "nick!user".toList, IsServer := false,
             Nickname := "nick".toList, User := "user".toList, Host := [] } ∧
    ParsePrefix "se.rv.er".toList =
      some { Raw := "se.rv.er".toList, IsServer := true,
             Nickname := [], User := [], Host := "se.rv.er".toList } ∧
    ParsePrefix "nick!user@host".toList =
      some { Raw := "nick!user@host".toList, IsServer := false,
             Nickname := "nick".toList, User := "user".toList,
             Host := "host".toList } ∧
    ParsePrefix "".toList = none ∧
    ParsePrefix "@host".toList = none ∧
    ParsePrefix "!user@host".toList = none :=
  ⟨ParsePrefix_eq_spec, by decide, by decide, by decide, by decide,
   by decide, by decide, by decide⟩

/-- C1: parameters are computed by splitting the accumulated text on
single spaces and walking the tokens per the spec (`specParamWalk`
refines the source's walk), and the two quoted examples scan to the
claimed parameter lists, the trailing parameter keeping its internal
spacing. -/
theorem C1_thm :
    (∀ toks : List Str, paramWalk toks = specParamWalk toks) ∧
    (∀ (s : ScanState) (buf : Str), (readParamsLoop s []).1 = .ok buf →
      (readParams s).1 = .ok (specParamWalk (splitOnCh ' ' buf))) ∧
    ((nextMsg (mkState "FOO   bar    baz\r\n".toList)).1.2 = none ∧
     (nextMsg (mkState "FOO   bar    baz\r\n".toList)).1.1.Params =
       ["bar".toList, "baz".toList]) ∧
    ((nextMsg
        (mkState "PRIVMSG foo :A string  with spaces   \r\n".toList)).1.2 =
          none ∧
     (nextMsg
        (mkState "PRIVMSG foo :A string  with spaces   \r\n".toList)).1.1.Params =
       ["foo".toList, "A string  with spaces   ".toList]) := by
  refine ⟨paramWalk_eq_spec, ?_, ⟨by decide, by decide⟩,
    ⟨by decide, by decide⟩⟩
  intro s buf h
  unfold readParams
  rcases hp : readParamsLoop s [] with ⟨r, s'⟩
  rw [hp] at h
  simp only at h
  subst h
  simp only
  rw [paramWalk_eq_spec]

/-- C1 witness: the loop characterization applied to the concrete
buffer `"bar baz"`. -/
theorem C1_witness :
    (readParams (mkState "bar baz\r\n".toList)).1 =
      .ok (specParamWalk (splitOnCh ' ' "bar baz".toList)) :=
  C1_thm.2.1 (mkState "bar baz\r\n".toList) "bar baz".toList (by decide)

/-- C7 counterexample: on the concrete input `"\rX"` the line-end
detector reports "not end" but the carriage-return is *not* pushed
back; the next read produces `'X'`, not `'\r'`. -/
theorem C7_counterexample :
    (isLineEnd (mkState "\rX".toList)).1 = (false, none) ∧
    (read (isLineEnd (mkState "\rX".toList)).2).1 = .ok 'X' ∧
    (read (isLineEnd (mkState "\rX".toList)).2).1 ≠ .ok '\r' :=
  ⟨by decide, by decide, by decide⟩

/-- C7 (amended): on a carriage-return followed by a non-line-feed
character, the detector reports "not end" with only the second
character pushed back — the attempted second unread of the
carriage-return silently fails (one-unit pushback), so the
carriage-return remains consumed (it stays in `rawBuf` and the size
count) and the next read produces the non-line-feed character. -/
theorem C7_thm (s : ScanState) (c : Char) (rest : Str)
    (hin : s.input = '\r' :: c :: rest) (hc : c ≠ '\n')
    (h1 : s.msgSize + 1 ≤ maxMessageSize)
    (h2 : s.msgSize + 1 + c.utf8Size ≤ maxMessageSize) :
    isLineEnd s = ((false, none),
      { input := c :: rest, rawBuf := s.rawBuf ++ ['\r'],
        msgSize := s.msgSize + 1, lastSize := c.utf8Size,
        lastChar := c, canUnread := false }) ∧
    (read (isLineEnd s).2).1 = .ok c := by
  have hr : ('\r').utf8Size = 1 := rfl
  have hread1 : read s = (.ok '\r',
      { input := c :: rest, rawBuf := s.rawBuf ++ ['\r'],
        msgSize := s.msgSize + 1, lastSize := 1,
        lastChar := '\r', canUnread := true }) := by
    unfold read
    rw [hin]
    simp only
    rw [if_neg (by rw [hr]; omega)]
    rw [hr]
  have hread2 : read
      ({ input := c :: rest, rawBuf := s.rawBuf ++ ['\r'],
         msgSize := s.msgSize + 1, lastSize := 1,
         lastChar := '\r', canUnread := true } : ScanState) = (.ok c,
      { input := rest, rawBuf := (s.rawBuf ++ ['\r']) ++ [c],
        msgSize := s.msgSize + 1 + c.utf8Size, lastSize := c.utf8Size,
        lastChar := c, canUnread := true }) := by
    unfold read
    try simp only
    rw [if_neg (by first | (simp only; omega) | omega)]
  have hu2 : unread
      ({ input := rest, rawBuf := (s.rawBuf ++ ['\r']) ++ [c],
         msgSize := s.msgSize + 1 + c.utf8Size, lastSize := c.utf8Size,
         lastChar := c, canUnread := true } : ScanState) =
      { input := c :: rest, rawBuf := s.rawBuf ++ ['\r'],
        msgSize := s.msgSize + 1, lastSize := c.utf8Size,
        lastChar := c, canUnread := false } := by
    unfold unread
    simp [List.dropLast_concat]
  have hu3 : unread
      ({ input := c :: rest, rawBuf := s.rawBuf ++ ['\r'],
         msgSize := s.msgSize + 1, lastSize := c.utf8Size,
         lastChar := c, canUnread := false } : ScanState) =
      { input := c :: rest, rawBuf := s.rawBuf ++ ['\r'],
        msgSize := s.msgSize + 1, lastSize := c.utf8Size,
        lastChar := c, canUnread := false } := by
    unfold unread
    simp
  have hend : isLineEnd s = ((false, none),
      { input := c :: rest, rawBuf := s.rawBuf ++ ['\r'],
        msgSize := s.msgSize + 1, lastSize := c.utf8Size,
        lastChar := c, canUnread := false }) := by
    unfold isLineEnd
    rw [hread1]
    try simp only
    simp only [if_true]
    rw [hread2]
    try simp only
    rw [if_neg hc, hu2, hu3]
  refine ⟨hend, ?_⟩
  rw [hend]
  unfold read
  try simp only
  rw [if_neg (by first | (simp only; omega) | omega)]

/-- C7 witness: the amended theorem applied at the concrete state
scanning `"\rX"`. -/
theorem C7_witness :
    isLineEnd (mkState "\rX".toList) = ((false, none),
      { input := ['X'], rawBuf := ['\r'], msgSize := 1,
        lastSize := 'X'.utf8Size, lastChar := 'X', canUnread := false }) ∧
    (read (isLineEnd (mkState "\rX".toList)).2).1 = .ok 'X' :=
  C7_thm (mkState "\rX".toList) 'X' [] (by decide) (by decide)
    (by decide) (by decide)

/-- C6 counterexample: the input `"\r\n"` scans successfully and its
`Command` field is the empty string, so a Message can be returned
without error with an empty command. -/
theorem C6_counterexample :
    (nextMsg (mkState "\r\n".toList)).1 =
      ({ Raw := "\r\n".toList, Tags := none, Prefix := [], Command := [],
         Params := [] }, none) := by decide

/-- C6 (amended): on success the command reader returns exactly the
run of characters before the first space or carriage-return at the
command position — non-empty whenever that run starts with an ordinary
character, but empty when the command area is empty (as for the bare
terminator line `"\r\n"`). -/
theorem C6_thm :
    (∀ (s : ScanState) (v : Str), (readCommand s).1 = .ok v →
      v = s.input.takeWhile (fun c => !(c == ' ' || c == '\r'))) ∧
    (∀ (s : ScanState) (v : Str) (c : Char), (readCommand s).1 = .ok v →
      s.input.head? = some c → c ≠ ' ' → c ≠ '\r' → v ≠ []) ∧
    (nextMsg (mkState "FOO bar\r\n".toList)).1.1.Command = "FOO".toList := by
  have hmain : ∀ (s : ScanState) (v : Str), (readCommand s).1 = .ok v →
      v = s.input.takeWhile (fun c => !(c == ' ' || c == '\r')) := by
    intro s v h
    unfold readCommand at h
    rcases hp : readCommandLoop s [] with ⟨r, s'⟩
    rw [hp] at h
    cases r with
    | error e => simp at h
    | ok buf =>
      simp only at h
      injection h with hbv
      subst hbv
      have := readCommandLoopF_ok_val (s.input.length + 1) s [] buf
        (by rw [show readCommandLoopF (s.input.length + 1) s [] =
              readCommandLoop s [] from rfl, hp]) (by omega)
      simpa using this
  refine ⟨hmain, ?_, by decide⟩
  intro s v c h hh hsp hcr
  have hv := hmain s v h
  obtain ⟨rest, hi⟩ : ∃ t, s.input = c :: t := by
    cases hi2 : s.input with
    | nil =>
      rw [hi2] at hh
      simp at hh
    | cons a t =>
      rw [hi2] at hh
      simp at hh
      exact ⟨t, by rw [hh]⟩
  rw [hi, List.takeWhile_cons] at hv
  have hb : (!(c == ' ' || c == '\r')) = true := by simp [hsp, hcr]
  rw [hb] at hv
  simp only at hv
  rw [hv]
  simp

/-- C6 witness: the characterization applied to the concrete state
scanning `"FOO b\r\n"`. -/
theorem C6_witness :
    ("FOO".toList : Str) =
      (mkState "FOO b\r\n".toList).input.takeWhile
        (fun c => !(c == ' ' || c == '\r')) :=
  C6_thm.1 (mkState "FOO b\r\n".toList) "FOO".toList (by decide)

theorem read_nil {s : ScanState} (h : s.input = []) :
    read s = (.error .eof, { s with canUnread := false }) := by
  unfold read
  rw [h]

theorem read_cons_ok {s : ScanState} {c : Char} {rest : Str}
    (h : s.input = c :: rest)
    (hsz : s.msgSize + c.utf8Size ≤ maxMessageSize) :
    read s = (.ok c,
      { input := rest, rawBuf := s.rawBuf ++ [c],
        msgSize := s.msgSize + c.utf8Size, lastSize := c.utf8Size,
        lastChar := c, canUnread := true }) := by
  unfold read
  rw [h]
  try simp only
  rw [if_neg (by omega)]

theorem read_cons_over {s : ScanState} {c : Char} {rest : Str}
    (h : s.input = c :: rest)
    (hsz : s.msgSize + c.utf8Size > maxMessageSize) :
    read s = (.error .malformed,
      { input := rest, rawBuf := s.rawBuf ++ [c],
        msgSize := s.msgSize + c.utf8Size, lastSize := c.utf8Size,
        lastChar := c, canUnread := true }) := by
  unfold read
  rw [h]
  try simp only
  rw [if_pos (by omega)]

theorem unread_off {s : ScanState} (h : s.canUnread = false) :
    unread s = s := by
  unfold unread
  rw [h]
  simp

theorem nextMsg_empty {s : ScanState} (h : s.input = []) :
    (nextMsg s).1 = (zeroMessage, some RErr.eof) := by
  unfold nextMsg
  rw [read_nil (s := { s with rawBuf := [], msgSize := 0 }) (by simpa using h)]

theorem readCommandLoopF_plain_eof :
    ∀ (fuel : Nat) (s : ScanState) (buf : Str),
      s.input.length < fuel →
      (∀ c ∈ s.input, c ≠ ' ' ∧ c ≠ '\r') →
      s.msgSize + utf8Len s.input ≤ maxMessageSize →
      (readCommandLoopF fuel s buf).1 = .error .unexpectedEof := by
  intro fuel
  induction fuel with
  | zero =>
    intro s buf hl hpl hsz
    omega
  | succ fuel ih =>
    intro s buf hl hpl hsz
    unfold readCommandLoopF
    cases hi : s.input with
    | nil =>
      rw [read_nil hi]
    | cons c rest =>
      have husz : utf8Len (c :: rest) = c.utf8Size + utf8Len rest := by
        simp [utf8Len]
      have hc := hpl c (by rw [hi]; exact List.mem_cons_self c rest)
      rw [read_cons_ok hi (by rw [hi, husz] at hsz; omega)]
      try simp only
      rw [if_neg hc.1, if_neg hc.2]
      apply ih
      · simp only
        rw [hi] at hl
        simp only [List.length_cons] at hl
        omega
      · intro d hd
        exact hpl d (by rw [hi]; exact List.mem_cons_of_mem c hd)
      · simp only
        rw [hi, husz] at hsz
        omega

/-- C4 counterexample: the stream `"FOO\r"` ends after a
carriage-return with no line-feed (mid-message), yet the scan step
records plain end-of-input, which `Err` reports as a clean end, not as
unexpected-end-of-input. -/
theorem C4_counterexample :
    (nextMsg (mkState "FOO\r".toList)).1.2 = some RErr.eof ∧
    (Scan (NewScanner "FOO\r".toList)).1 = false ∧
    Err (Scan (NewScanner "FOO\r".toList)).2 = none :=
  ⟨by decide, by decide, by decide⟩

/-- C4 (amended): a stream ending exactly at a message boundary ends
the sequence cleanly (`Scan` returns false with no reported error); a
stream ending mid-command fails with unexpected-end-of-input; but a
stream ending right after a carriage-return consumed by the line-end
detector (e.g. `"FOO\r"`) surfaces as plain end-of-input, which is
reported as a clean end rather than unexpected-end-of-input. -/
theorem C4_thm :
    (∀ st : ScannerState, st.err = none → st.inner.input = [] →
      (Scan st).1 = false ∧ Err (Scan st).2 = none) ∧
    (∀ l : Str, l ≠ [] →
      (∀ c ∈ l, c ≠ '@' ∧ c ≠ ':' ∧ c ≠ ' ' ∧ c ≠ '\r') →
      utf8Len l ≤ maxMessageSize →
      (nextMsg (mkState l)).1 = (zeroMessage, some RErr.unexpectedEof)) ∧
    (nextMsg (mkState "FOO\r".toList)).1.2 = some RErr.eof := by
  refine ⟨?_, ?_, by decide⟩
  · intro st he hin
    rcases hp : nextMsg st.inner with ⟨⟨m, e'⟩, i⟩
    have hz := nextMsg_empty hin
    rw [hp] at hz
    simp only at hz
    injection hz with hm he'
    subst hm
    subst he'
    rw [Scan_fail he hp]
    exact ⟨rfl, rfl⟩
  · intro l hne hplain hsz
    obtain ⟨c, rest, rfl⟩ := List.exists_cons_of_ne_nil hne
    have hc := hplain c (List.mem_cons_self c rest)
    have husz : utf8Len (c :: rest) = c.utf8Size + utf8Len rest := by
      simp [utf8Len]
    have hcle : c.utf8Size ≤ maxMessageSize := by
      rw [husz] at hsz
      omega
    unfold nextMsg
    rw [read_cons_ok (s := { mkState (c :: rest) with rawBuf := [], msgSize := 0 })
      (by rfl) (by simp only [mkState]; omega)]
    simp only [mkState]
    rw [if_neg hc.1]
    try simp only
    rw [if_neg hc.2.1]
    try simp only
    have hu : unread
        ({ input := rest, rawBuf := ([] : Str) ++ [c],
           msgSize := 0 + c.utf8Size, lastSize := c.utf8Size,
           lastChar := c, canUnread := true } : ScanState) =
        { input := c :: rest, rawBuf := [], msgSize := 0,
          lastSize := c.utf8Size, lastChar := c, canUnread := false } := by
      unfold unread
      simp
    rw [hu]
    rcases hql : readCommandLoop
        ({ input := c :: rest, rawBuf := [], msgSize := 0,
           lastSize := c.utf8Size, lastChar := c,
           canUnread := false } : ScanState) [] with ⟨r0, t0⟩
    have hr0 : r0 = .error .unexpectedEof := by
      have := readCommandLoopF_plain_eof
        ((c :: rest).length + 1)
        ({ input := c :: rest, rawBuf := [], msgSize := 0,
           lastSize := c.utf8Size, lastChar := c,
           canUnread := false } : ScanState) []
        (by simp) (by
          intro d hd
          have := hplain d hd
          exact ⟨this.2.2.1, this.2.2.2⟩) (by
          simp only
          omega)
      rw [show readCommandLoopF ((c :: rest).length + 1)
          ({ input := c :: rest, rawBuf := [], msgSize := 0,
             lastSize := c.utf8Size, lastChar := c,
             canUnread := false } : ScanState) [] =
          readCommandLoop
          ({ input := c :: rest, rawBuf := [], msgSize := 0,
             lastSize := c.utf8Size, lastChar := c,
             canUnread := false } : ScanState) [] from rfl, hql] at this
      simpa using this
    subst hr0
    have hrc : readCommand
        ({ input := c :: rest, rawBuf := [], msgSize := 0,
           lastSize := c.utf8Size, lastChar := c,
           canUnread := false } : ScanState) =
        (.error .unexpectedEof, t0) := by
      unfold readCommand
      rw [hql]
    rw [hrc]

theorem readTagStringF_over :
    ∀ (fuel k : Nat) (s : ScanState) (buf : Str),
      s.input = List.replicate k 'a' →
      s.input.length < fuel →
      s.msgSize ≤ maxMessageSize →
      maxMessageSize < s.msgSize + k →
      (readTagStringF fuel s buf).1 = .error .malformed := by
  intro fuel
  induction fuel with
  | zero =>
    intro k s buf hin hl hm hover
    omega
  | succ fuel ih =>
    intro k s buf hin hl hm hover
    have ha : ('a').utf8Size = 1 := rfl
    cases k with
    | zero => omega
    | succ k =>
      have hin' : s.input = 'a' :: List.replicate k 'a' := by
        rw [hin, List.replicate_succ]
      unfold readTagStringF
      by_cases hsz : s.msgSize + ('a').utf8Size > maxMessageSize
      · rw [read_cons_over hin' hsz]
      · rw [read_cons_ok hin' (by omega)]
        try simp only
        rw [if_neg (by decide : ¬('a' = ' '))]
        by_cases hbuf : utf8Len buf ≥ maxMessageSize
        · rw [if_pos hbuf]
        · rw [if_neg hbuf]
          apply ih k
          · simp only
          · simp only [List.length_replicate]
            rw [hin', List.length_cons, List.length_replicate] at hl
            omega
          · simp only
            omega
          · simp only
            omega


theorem nextMsg_tag_over (n : Nat) (hn : maxMessageSize ≤ n) :
    (nextMsg (mkState ('@' :: List.replicate n 'a'))).1.2 =
      some RErr.malformed := by
  unfold nextMsg
  rw [read_cons_ok
    (s := { mkState ('@' :: List.replicate n 'a') with
            rawBuf := [], msgSize := 0 })
    (by rfl) (by simp only [mkState]; decide)]
  simp only [mkState]
  simp only [if_true]
  rcases hql : readTagString
      ({ input := List.replicate n 'a', rawBuf := ([] : Str) ++ ['@'],
         msgSize := 0 + ('@').utf8Size, lastSize := ('@').utf8Size,
         lastChar := '@', canUnread := true } : ScanState) [] with ⟨r0, t0⟩
  have hr0 : r0 = .error .malformed := by
    have := readTagStringF_over ((List.replicate n 'a').length + 1) n
      ({ input := List.replicate n 'a', rawBuf := ([] : Str) ++ ['@'],
         msgSize := 0 + ('@').utf8Size, lastSize := ('@').utf8Size,
         lastChar := '@', canUnread := true } : ScanState) []
      (by simp only) (by simp only [List.length_replicate]; omega)
      (by simp only; decide)
      (by
        have : ('@').utf8Size = 1 := rfl
        simp only [this]
        omega)
    rw [show readTagStringF ((List.replicate n 'a').length + 1)
        ({ input := List.replicate n 'a', rawBuf := ([] : Str) ++ ['@'],
           msgSize := 0 + ('@').utf8Size, lastSize := ('@').utf8Size,
           lastChar := '@', canUnread := true } : ScanState) [] =
        readTagString
        ({ input := List.replicate n 'a', rawBuf := ([] : Str) ++ ['@'],
           msgSize := 0 + ('@').utf8Size, lastSize := ('@').utf8Size,
           lastChar := '@', canUnread := true } : ScanState) [] from rfl,
      hql] at this
    simpa using this
  subst hr0
  have hrt : readTags
      ({ input := List.replicate n 'a', rawBuf := ([] : Str) ++ ['@'],
         msgSize := 0 + ('@').utf8Size, lastSize := ('@').utf8Size,
         lastChar := '@', canUnread := true } : ScanState) =
      (.error .malformed, t0) := by
    unfold readTags
    rw [hql]
  rw [hrt]


theorem readParamsLoopF_over :
    ∀ (fuel k : Nat) (s : ScanState) (buf : Str),
      s.input = List.replicate k 'a' →
      s.input.length < fuel →
      s.msgSize ≤ maxMessageSize →
      maxMessageSize + 2 ≤ s.msgSize + k →
      (readParamsLoopF fuel s buf).1 = .error .malformed := by
  intro fuel
  induction fuel with
  | zero =>
    intro k s buf hin hl hm hover
    omega
  | succ fuel ih =>
    intro k s buf hin hl hm hover
    have ha : ('a').utf8Size = 1 := rfl
    cases k with
    | zero => omega
    | succ k =>
      have hin' : s.input = 'a' :: List.replicate k 'a' := by
        rw [hin, List.replicate_succ]
      unfold readParamsLoopF
      by_cases hsz : s.msgSize + 1 ≤ maxMessageSize
      · have hle : isLineEnd s = ((false, none),
            { input := 'a' :: List.replicate k 'a', rawBuf := s.rawBuf,
              msgSize := s.msgSize, lastSize := ('a').utf8Size,
              lastChar := 'a', canUnread := false }) := by
          unfold isLineEnd
          rw [read_cons_ok hin' (by omega)]
          try simp only
          rw [if_neg (by decide : ¬('a' = '\r'))]
          unfold unread
          simp [List.dropLast_concat]
        rw [hle]
        try simp only
        rw [@read_cons_ok
          { input := 'a' :: List.replicate k 'a', rawBuf := s.rawBuf,
            msgSize := s.msgSize, lastSize := ('a').utf8Size,
            lastChar := 'a', canUnread := false }
          'a' (List.replicate k 'a')
          (by simp only) (by simp only [ha]; omega)]
        try simp only
        apply ih k
        · simp only
        · simp only [List.length_replicate]
          rw [hin', List.length_cons, List.length_replicate] at hl
          omega
        · simp only [ha]
          omega
        · simp only [ha]
          omega
      · have hle : isLineEnd s = ((false, some RErr.malformed),
            { input := List.replicate k 'a', rawBuf := s.rawBuf ++ ['a'],
              msgSize := s.msgSize + ('a').utf8Size,
              lastSize := ('a').utf8Size,
              lastChar := 'a', canUnread := true }) := by
          unfold isLineEnd
          rw [read_cons_over hin' (by omega)]
        rw [hle]
        try simp only
        have hk : 1 ≤ k := by omega
        obtain ⟨k2, rfl⟩ : ∃ k2, k = k2 + 1 := ⟨k - 1, by omega⟩
        rw [@read_cons_over
          { input := List.replicate (k2 + 1) 'a',
            rawBuf := s.rawBuf ++ ['a'],
            msgSize := s.msgSize + ('a').utf8Size,
            lastSize := ('a').utf8Size,
            lastChar := 'a', canUnread := true }
          'a' (List.replicate k2 'a')
          (by simp only; rw [List.replicate_succ]) (by simp only [ha]; omega)]


set_option maxRecDepth 10000 in
/-- C5 counterexample: a post-tag segment that exceeds its 512-unit
budget by exactly one unit at the end of the stream (`"FOO "` plus 509
`a`s, 513 units, unterminated) fails with unexpected-end-of-input, not
with the malformed-message error: the oversize probe read inside the
parameter loop is discarded and the next read hits the end of input. -/
theorem C5_counterexample :
    (nextMsg (mkState ("FOO ".toList ++ List.replicate 509 'a'))).1.2 =
      some RErr.unexpectedEof := by decide

set_option maxRecDepth 10000 in
/-- C5 (amended): a read that would push the size counter past 512
units fails with the malformed-message error instead of returning the
character, and a successful read always leaves the counter within
budget; a tag block exceeding 512 units always fails the scan with
malformed; a post-tag segment exceeding its own 512-unit budget by two
or more units fails with malformed (via the parameter-loop lemma and
the 510-`a` instance) — though exceeding it by exactly one unit at end
of stream surfaces as unexpected-end-of-input; the two budgets are
independent: a 1017-unit message whose tag segment and post-tag segment
each stay within 512 units scans successfully. -/
theorem C5_thm :
    (∀ (s : ScanState) (c : Char) (rest : Str), s.input = c :: rest →
      s.msgSize + c.utf8Size > maxMessageSize →
      (read s).1 = .error .malformed) ∧
    (∀ (s : ScanState) (c : Char), (read s).1 = .ok c →
      (read s).2.msgSize ≤ maxMessageSize) ∧
    (∀ n : Nat, maxMessageSize ≤ n →
      (nextMsg (mkState ('@' :: List.replicate n 'a'))).1.2 =
        some RErr.malformed) ∧
    (∀ (fuel k : Nat) (s : ScanState) (buf : Str),
      s.input = List.replicate k 'a' →
      s.input.length < fuel →
      s.msgSize ≤ maxMessageSize →
      maxMessageSize + 2 ≤ s.msgSize + k →
      (readParamsLoopF fuel s buf).1 = .error .malformed) ∧
    ((nextMsg (mkState ("FOO ".toList ++ List.replicate 510 'a'))).1.2 =
      some RErr.malformed) ∧
    ((nextMsg (mkState ('@' :: List.replicate 509 'a' ++ " FOO ".toList ++
        List.replicate 500 'a' ++ "\r\n".toList))).1.2 = none) := by
  refine ⟨?_, ?_, nextMsg_tag_over, readParamsLoopF_over,
    by decide, by decide⟩
  · intro s c rest h hsz
    rw [read_cons_over h hsz]
  · intro s c h
    cases hi : s.input with
    | nil =>
      rw [read_nil hi] at h
      simp at h
    | cons a rest =>
      by_cases hsz : s.msgSize + a.utf8Size > maxMessageSize
      · rw [read_cons_over hi hsz] at h
        simp at h
      · rw [read_cons_ok hi (by omega)]
        simp only
        omega

/-- C5 witness: the tag-budget conjunct applied at the concrete
oversize 512. -/
theorem C5_witness :
    (nextMsg (mkState ('@' :: List.replicate 512 'a'))).1.2 =
      some RErr.malformed :=
  C5_thm.2.2.1 512 (by decide)


/-- C4 witness: the mid-command conjunct applied to the concrete
stream `"FO"`. -/
theorem C4_witness :
    (nextMsg (mkState "FO".toList)).1 =
      (zeroMessage, some RErr.unexpectedEof) :=
  C4_thm.2.1 "FO".toList (by decide) (by decide) (by decide)

theorem utf8Len_append (l1 l2 : Str) :
    utf8Len (l1 ++ l2) = utf8Len l1 + utf8Len l2 := by
  simp [utf8Len]

theorem Steps_self {s : ScanState} (h : WF s) : Steps s s :=
  ⟨h, rfl, rfl⟩

theorem Steps_trans {s t u : ScanState} (h1 : Steps s t) (h2 : Steps t u) :
    Steps s u := by
  refine ⟨h2.wf, ?_, ?_⟩
  · rw [h2.tr, h1.tr]
  · have b1 := h1.bd
    have b2 := h2.bd
    omega

theorem wf_read (s : ScanState) : WF (read s).2 := by
  cases hi : s.input with
  | nil =>
    rw [read_nil hi]
    intro h
    simp at h
  | cons c rest =>
    by_cases hsz : s.msgSize + c.utf8Size > maxMessageSize
    · rw [read_cons_over hi hsz]
      intro _
      refine ⟨?_, rfl, by simp only; omega⟩
      simp only
      exact List.getLast?_concat _
    · rw [read_cons_ok hi (by omega)]
      intro _
      refine ⟨?_, rfl, by simp only; omega⟩
      simp only
      exact List.getLast?_concat _

theorem steps_read (s : ScanState) : Steps s (read s).2 := by
  refine ⟨wf_read s, ?_, ?_⟩
  · cases hi : s.input with
    | nil =>
      rw [read_nil hi]
      simp [hi]
    | cons c rest =>
      by_cases hsz : s.msgSize + c.utf8Size > maxMessageSize
      · rw [read_cons_over hi hsz]
        simp [hi]
      · rw [read_cons_ok hi (by omega)]
        simp [hi]
  · cases hi : s.input with
    | nil =>
      rw [read_nil hi]
    | cons c rest =>
      by_cases hsz : s.msgSize + c.utf8Size > maxMessageSize
      · rw [read_cons_over hi hsz]
        simp only [utf8Len_append]
        simp [utf8Len]
        omega
      · rw [read_cons_ok hi (by omega)]
        simp only [utf8Len_append]
        simp [utf8Len]
        omega

theorem unread_canUnread (s : ScanState) : (unread s).canUnread = false := by
  unfold unread
  split
  · rfl
  · rename_i h
    simpa using h

theorem steps_unread {s : ScanState} (h : WF s) : Steps s (unread s) := by
  cases hc : s.canUnread with
  | false =>
    rw [unread_off hc]
    exact Steps_self h
  | true =>
    obtain ⟨hlast, hsize, hle⟩ := h hc
    obtain ⟨init, hinit⟩ := List.getLast?_eq_some_iff.mp hlast
    unfold unread
    rw [hc]
    rw [if_pos rfl]
    refine ⟨?_, ?_, ?_⟩
    · intro hcontra
      simp at hcontra
    · simp only
      rw [hinit, List.dropLast_concat, List.append_assoc]
      rfl
    · simp only
      rw [hinit, List.dropLast_concat, utf8Len_append]
      have : utf8Len [s.lastChar] = s.lastChar.utf8Size := by
        simp [utf8Len]
      omega

theorem read_ok_le {s : ScanState} {c : Char} (h : (read s).1 = .ok c) :
    (read s).2.msgSize ≤ maxMessageSize := by
  cases hi : s.input with
  | nil =>
    rw [read_nil hi] at h
    simp at h
  | cons a rest =>
    by_cases hsz : s.msgSize + a.utf8Size > maxMessageSize
    · rw [read_cons_over hi hsz] at h
      simp at h
    · rw [read_cons_ok hi (by omega)]
      simp only
      omega


theorem wf_of_not_canUnread {s : ScanState} (h : s.canUnread = false) :
    WF s := by
  intro hc
  rw [h] at hc
  simp at hc

theorem unread_size_le (s : ScanState) : (unread s).msgSize ≤ s.msgSize := by
  unfold unread
  split
  · simp only
    omega
  · exact le_rfl

theorem read_ok_spec {s t : ScanState} {c : Char}
    (h : read s = (.ok c, t)) :
    s.input = c :: t.input ∧ t.rawBuf = s.rawBuf ++ [c] ∧
    t.msgSize = s.msgSize + c.utf8Size ∧ t.msgSize ≤ maxMessageSize ∧
    t.canUnread = true ∧ t.lastSize = c.utf8Size := by
  cases hi : s.input with
  | nil =>
    rw [read_nil hi] at h
    simp at h
  | cons a rest =>
    by_cases hsz : s.msgSize + a.utf8Size > maxMessageSize
    · rw [read_cons_over hi hsz] at h
      simp at h
    · rw [read_cons_ok hi (by omega)] at h
      injection h with ha hb
      injection ha with ha
      subst ha
      subst hb
      refine ⟨by simp [hi], rfl, rfl, by simp only; omega, rfl, rfl⟩

theorem unread_read_size {s : ScanState} (h : s.msgSize ≤ maxMessageSize) :
    (unread (read s).2).msgSize ≤ maxMessageSize := by
  cases hi : s.input with
  | nil =>
    rw [read_nil hi]
    rw [unread_off rfl]
    exact h
  | cons c rest =>
    by_cases hsz : s.msgSize + c.utf8Size > maxMessageSize
    · rw [read_cons_over hi hsz]
      unfold unread
      simp only [if_pos rfl]
      simp
      omega
    · rw [read_cons_ok hi (by omega)]
      unfold unread
      simp only [if_pos rfl]
      simp
      omega

theorem steps_skipSpaceF : ∀ (fuel : Nat) (s : ScanState), WF s →
    Steps s (skipSpaceF fuel s) := by
  intro fuel
  induction fuel with
  | zero =>
    intro s h
    exact Steps_self h
  | succ fuel ih =>
    intro s h
    unfold skipSpaceF
    rcases hr : read s with ⟨r, t⟩
    have hst : Steps s t := by
      have h2 := steps_read s
      rw [hr] at h2
      exact h2
    cases r with
    | ok c =>
      try simp only
      by_cases hc : c = ' '
      · rw [if_pos hc]
        exact Steps_trans hst (ih t hst.wf)
      · rw [if_neg hc]
        exact Steps_trans hst (steps_unread hst.wf)
    | error e =>
      try simp only
      exact Steps_trans hst (steps_unread hst.wf)

theorem skipSpaceF_size : ∀ (fuel : Nat) (s : ScanState),
    s.msgSize ≤ maxMessageSize →
    (skipSpaceF fuel s).msgSize ≤ maxMessageSize := by
  intro fuel
  induction fuel with
  | zero =>
    intro s h
    exact h
  | succ fuel ih =>
    intro s h
    unfold skipSpaceF
    rcases hr : read s with ⟨r, t⟩
    have hur : (unread t).msgSize ≤ maxMessageSize := by
      have h2 := unread_read_size h
      rw [hr] at h2
      exact h2
    cases r with
    | ok c =>
      try simp only
      by_cases hc : c = ' '
      · rw [if_pos hc]
        apply ih
        have h3 := read_ok_le (s := s) (c := c) (by rw [hr])
        rw [hr] at h3
        exact h3
      · rw [if_neg hc]
        exact hur
    | error e =>
      try simp only
      exact hur

theorem skipSpaceF_canUnread : ∀ (fuel : Nat) (s : ScanState),
    s.input.length < fuel →
    (skipSpaceF fuel s).canUnread = false := by
  intro fuel
  induction fuel with
  | zero =>
    intro s h
    omega
  | succ fuel ih =>
    intro s h
    unfold skipSpaceF
    rcases hr : read s with ⟨r, t⟩
    cases r with
    | ok c =>
      try simp only
      by_cases hc : c = ' '
      · rw [if_pos hc]
        apply ih
        have := (read_ok_spec hr).1
        rw [this] at h
        simp at h
        omega
      · rw [if_neg hc]
        exact unread_canUnread t
    | error e =>
      try simp only
      exact unread_canUnread t


theorem steps_readTagStringF : ∀ (fuel : Nat) (s : ScanState) (buf : Str),
    WF s → Steps s (readTagStringF fuel s buf).2 := by
  intro fuel
  induction fuel with
  | zero =>
    intro s buf h
    exact Steps_self h
  | succ fuel ih =>
    intro s buf h
    unfold readTagStringF
    rcases hr : read s with ⟨r, t⟩
    have hst : Steps s t := by
      have h2 := steps_read s
      rw [hr] at h2
      exact h2
    cases r with
    | error e =>
      cases e <;> (try simp only) <;> exact hst
    | ok c =>
      try simp only
      by_cases hc : c = ' '
      · rw [if_pos hc]
        exact hst
      · rw [if_neg hc]
        by_cases hb : utf8Len buf ≥ maxMessageSize
        · rw [if_pos hb]
          exact hst
        · rw [if_neg hb]
          exact Steps_trans hst (ih t (buf ++ [c]) hst.wf)

theorem readTagStringF_ok_size : ∀ (fuel : Nat) (s : ScanState) (buf v : Str),
    s.msgSize ≤ maxMessageSize →
    (readTagStringF fuel s buf).1 = .ok v →
    (readTagStringF fuel s buf).2.msgSize ≤ maxMessageSize := by
  intro fuel
  induction fuel with
  | zero =>
    intro s buf v h _
    exact h
  | succ fuel ih =>
    intro s buf v h h2
    unfold readTagStringF at h2 ⊢
    rcases hr : read s with ⟨r, t⟩
    rw [hr] at h2
    have hok : ∀ c : Char, r = .ok c → t.msgSize ≤ maxMessageSize := by
      intro c hc
      have h3 := read_ok_le (s := s) (c := c) (by rw [hr, hc])
      rw [hr] at h3
      exact h3
    cases r with
    | error e =>
      cases e <;> simp at h2
    | ok c =>
      simp only at h2 ⊢
      by_cases hc : c = ' '
      · rw [if_pos hc] at h2 ⊢
        exact hok c rfl
      · rw [if_neg hc] at h2 ⊢
        by_cases hb : utf8Len buf ≥ maxMessageSize
        · rw [if_pos hb] at h2
          simp at h2
        · rw [if_neg hb] at h2 ⊢
          exact ih t (buf ++ [c]) v (hok c rfl) h2

theorem steps_readPrefixLoopF : ∀ (fuel : Nat) (s : ScanState) (buf : Str),
    WF s → Steps s (readPrefixLoopF fuel s buf).2 := by
  intro fuel
  induction fuel with
  | zero =>
    intro s buf h
    exact Steps_self h
  | succ fuel ih =>
    intro s buf h
    unfold readPrefixLoopF
    rcases hr : read s with ⟨r, t⟩
    have hst : Steps s t := by
      have h2 := steps_read s
      rw [hr] at h2
      exact h2
    cases r with
    | error e =>
      cases e <;> (try simp only) <;> exact hst
    | ok c =>
      try simp only
      by_cases hc : c = ' '
      · rw [if_pos hc]
        exact hst
      · rw [if_neg hc]
        exact Steps_trans hst (ih t (buf ++ [c]) hst.wf)

theorem steps_readCommandLoopF : ∀ (fuel : Nat) (s : ScanState) (buf : Str),
    WF s → Steps s (readCommandLoopF fuel s buf).2 := by
  intro fuel
  induction fuel with
  | zero =>
    intro s buf h
    exact Steps_self h
  | succ fuel ih =>
    intro s buf h
    unfold readCommandLoopF
    rcases hr : read s with ⟨r, t⟩
    have hst : Steps s t := by
      have h2 := steps_read s
      rw [hr] at h2
      exact h2
    cases r with
    | error e =>
      cases e <;> (try simp only) <;> exact hst
    | ok c =>
      try simp only
      by_cases hc : c = ' '
      · rw [if_pos hc]
        exact hst
      · rw [if_neg hc]
        by_cases hc2 : c = '\r'
        · rw [if_pos hc2]
          exact Steps_trans hst (steps_unread hst.wf)
        · rw [if_neg hc2]
          exact Steps_trans hst (ih t (buf ++ [c]) hst.wf)

theorem steps_skipSpace {s : ScanState} (h : WF s) : Steps s (skipSpace s) :=
  steps_skipSpaceF (s.input.length + 1) s h

theorem steps_readTags {s : ScanState} (h : WF s) : Steps s (readTags s).2 := by
  unfold readTags
  rcases hq : readTagString s [] with ⟨r, t⟩
  have hst : Steps s t := by
    have h2 := steps_readTagStringF (s.input.length + 1) s [] h
    rw [show readTagStringF (s.input.length + 1) s [] =
      readTagString s [] from rfl, hq] at h2
    exact h2
  cases r with
  | error e =>
    try simp only
    exact hst
  | ok buf =>
    try simp only
    by_cases hb : ';' ∈ buf
    · rw [if_pos hb]
      cases hbm : buildTagMap (splitOnCh ';' buf) [] with
      | error e2 =>
        try simp only
        exact hst
      | ok m2 =>
        try simp only
        exact Steps_trans hst (steps_skipSpace hst.wf)
    · rw [if_neg hb]
      exact Steps_trans hst (steps_skipSpace hst.wf)

theorem readTags_ok_size {s : ScanState} {m : TagMap}
    (h : s.msgSize ≤ maxMessageSize) (h2 : (readTags s).1 = .ok m) :
    (readTags s).2.msgSize ≤ maxMessageSize := by
  unfold readTags at h2 ⊢
  rcases hq : readTagString s [] with ⟨r, t⟩
  rw [hq] at h2
  have htle : ∀ v : Str, r = .ok v → t.msgSize ≤ maxMessageSize := by
    intro v hv
    have h3 := readTagStringF_ok_size (s.input.length + 1) s [] v h
      (by rw [show readTagStringF (s.input.length + 1) s [] =
        readTagString s [] from rfl, hq, hv])
    rw [show readTagStringF (s.input.length + 1) s [] =
      readTagString s [] from rfl, hq] at h3
    exact h3
  cases r with
  | error e =>
    simp at h2
  | ok buf =>
    simp only at h2 ⊢
    by_cases hb : ';' ∈ buf
    · rw [if_pos hb] at h2 ⊢
      cases hbm : buildTagMap (splitOnCh ';' buf) [] with
      | error e2 =>
        rw [hbm] at h2
        simp at h2
      | ok m2 =>
        try simp only
        exact skipSpaceF_size _ t (htle buf rfl)
    · rw [if_neg hb] at h2 ⊢
      exact skipSpaceF_size _ t (htle buf rfl)

theorem readTags_ok_canUnread {s : ScanState} {m : TagMap}
    (h2 : (readTags s).1 = .ok m) :
    (readTags s).2.canUnread = false := by
  unfold readTags at h2 ⊢
  rcases hq : readTagString s [] with ⟨r, t⟩
  rw [hq] at h2
  cases r with
  | error e =>
    simp at h2
  | ok buf =>
    simp only at h2 ⊢
    by_cases hb : ';' ∈ buf
    · rw [if_pos hb] at h2 ⊢
      cases hbm : buildTagMap (splitOnCh ';' buf) [] with
      | error e2 =>
        rw [hbm] at h2
        simp at h2
      | ok m2 =>
        try simp only
        exact skipSpaceF_canUnread _ t (by omega)
    · rw [if_neg hb] at h2 ⊢
      exact skipSpaceF_canUnread _ t (by omega)

theorem steps_readPrefix {s : ScanState} (h : WF s) :
    Steps s (readPrefix s).2 := by
  unfold readPrefix
  rcases hq : readPrefixLoop s [] with ⟨r, t⟩
  have hst : Steps s t := by
    have h2 := steps_readPrefixLoopF (s.input.length + 1) s [] h
    rw [show readPrefixLoopF (s.input.length + 1) s [] =
      readPrefixLoop s [] from rfl, hq] at h2
    exact h2
  cases r with
  | error e =>
    try simp only
    exact hst
  | ok buf =>
    try simp only
    exact Steps_trans hst (steps_skipSpace hst.wf)

theorem steps_readCommand {s : ScanState} (h : WF s) :
    Steps s (readCommand s).2 := by
  unfold readCommand
  rcases hq : readCommandLoop s [] with ⟨r, t⟩
  have hst : Steps s t := by
    have h2 := steps_readCommandLoopF (s.input.length + 1) s [] h
    rw [show readCommandLoopF (s.input.length + 1) s [] =
      readCommandLoop s [] from rfl, hq] at h2
    exact h2
  cases r with
  | error e =>
    try simp only
    exact hst
  | ok buf =>
    try simp only
    exact Steps_trans hst (steps_skipSpace hst.wf)

theorem steps_isLineEnd {s : ScanState} (h : WF s) :
    Steps s (isLineEnd s).2 := by
  unfold isLineEnd
  rcases hr : read s with ⟨r, t⟩
  have hst : Steps s t := by
    have h2 := steps_read s
    rw [hr] at h2
    exact h2
  cases r with
  | error e =>
    try simp only
    exact hst
  | ok c =>
    try simp only
    by_cases hc : c = '\r'
    · rw [if_pos hc]
      rcases hr2 : read t with ⟨r2, t2⟩
      have hst2 : Steps t t2 := by
        have h2 := steps_read t
        rw [hr2] at h2
        exact h2
      cases r2 with
      | error e2 =>
        try simp only
        exact Steps_trans hst hst2
      | ok c2 =>
        try simp only
        by_cases hc2 : c2 = '\n'
        · rw [if_pos hc2]
          exact Steps_trans hst hst2
        · rw [if_neg hc2]
          exact Steps_trans hst (Steps_trans hst2 (Steps_trans
            (steps_unread hst2.wf)
            (steps_unread (wf_of_not_canUnread (unread_canUnread t2)))))
    · rw [if_neg hc]
      exact Steps_trans hst (steps_unread hst.wf)

theorem isLineEnd_true {s : ScanState} {e : Option RErr} {t : ScanState}
    (h : isLineEnd s = ((true, e), t)) :
    t.rawBuf = s.rawBuf ++ ['\r', '\n'] ∧ t.msgSize ≤ maxMessageSize := by
  unfold isLineEnd at h
  rcases hr : read s with ⟨r, t1⟩
  rw [hr] at h
  cases r with
  | error e1 => simp at h
  | ok c =>
    simp only at h
    by_cases hc : c = '\r'
    · rw [if_pos hc] at h
      rcases hr2 : read t1 with ⟨r2, t2⟩
      rw [hr2] at h
      cases r2 with
      | error e2 => simp at h
      | ok c2 =>
        simp only at h
        by_cases hc2 : c2 = '\n'
        · rw [if_pos hc2] at h
          injection h with h1 h2
          subst h2
          obtain ⟨-, hb1, -, -, -, -⟩ := read_ok_spec hr
          obtain ⟨-, hb2, -, hle2, -, -⟩ := read_ok_spec hr2
          subst hc
          subst hc2
          constructor
          · rw [hb2, hb1, List.append_assoc]
            rfl
          · exact hle2
        · rw [if_neg hc2] at h
          simp at h
    · rw [if_neg hc] at h
      simp at h


theorem steps_readParamsLoopF : ∀ (fuel : Nat) (s : ScanState) (buf : Str),
    WF s → Steps s (readParamsLoopF fuel s buf).2 := by
  intro fuel
  induction fuel with
  | zero =>
    intro s buf h
    exact Steps_self h
  | succ fuel ih =>
    intro s buf h
    unfold readParamsLoopF
    rcases hl : isLineEnd s with ⟨⟨b, e⟩, t⟩
    have hst : Steps s t := by
      have h2 := steps_isLineEnd h
      rw [hl] at h2
      exact h2
    cases b with
    | true =>
      try simp only
      exact hst
    | false =>
      try simp only
      rcases hr : read t with ⟨r, t2⟩
      have hst2 : Steps t t2 := by
        have h2 := steps_read t
        rw [hr] at h2
        exact h2
      cases r with
      | error e2 =>
        cases e2 <;> (try simp only) <;> exact Steps_trans hst hst2
      | ok c =>
        try simp only
        exact Steps_trans hst (Steps_trans hst2 (ih t2 (buf ++ [c]) hst2.wf))

theorem readParamsLoopF_ok_end : ∀ (fuel : Nat) (s : ScanState) (buf v : Str),
    s.input.length < fuel →
    (readParamsLoopF fuel s buf).1 = .ok v →
    (∃ pre, (readParamsLoopF fuel s buf).2.rawBuf = pre ++ ['\r', '\n']) ∧
    (readParamsLoopF fuel s buf).2.msgSize ≤ maxMessageSize := by
  intro fuel
  induction fuel with
  | zero =>
    intro s buf v hl
    omega
  | succ fuel ih =>
    intro s buf v hl h2
    unfold readParamsLoopF at h2 ⊢
    rcases hle : isLineEnd s with ⟨⟨b, e⟩, t⟩
    rw [hle] at h2
    cases b with
    | true =>
      simp only at h2 ⊢
      obtain ⟨hraw, hsize⟩ := isLineEnd_true hle
      exact ⟨⟨s.rawBuf, hraw⟩, hsize⟩
    | false =>
      simp only at h2 ⊢
      rcases hr : read t with ⟨r, t2⟩
      rw [hr] at h2
      cases r with
      | error e2 =>
        cases e2 <;> simp at h2
      | ok c =>
        simp only at h2 ⊢
        apply ih t2 (buf ++ [c]) v
        · have ha := isLineEnd_not_end_length hle
          have hb := (read_ok_spec hr).1
          rw [hb] at ha
          simp at ha
          omega
        · exact h2

theorem steps_readParams {s : ScanState} (h : WF s) :
    Steps s (readParams s).2 := by
  unfold readParams
  rcases hq : readParamsLoop s [] with ⟨r, t⟩
  have hst : Steps s t := by
    have h2 := steps_readParamsLoopF (s.input.length + 1) s [] h
    rw [show readParamsLoopF (s.input.length + 1) s [] =
      readParamsLoop s [] from rfl, hq] at h2
    exact h2
  cases r with
  | error e =>
    try simp only
    exact hst
  | ok buf =>
    try simp only
    exact hst

theorem readParams_ok_end {s : ScanState} {ps : List Str}
    (h2 : (readParams s).1 = .ok ps) :
    (∃ pre, (readParams s).2.rawBuf = pre ++ ['\r', '\n']) ∧
    (readParams s).2.msgSize ≤ maxMessageSize := by
  unfold readParams at h2 ⊢
  rcases hq : readParamsLoop s [] with ⟨r, t⟩
  rw [hq] at h2
  cases r with
  | error e =>
    simp at h2
  | ok buf =>
    simp only at h2 ⊢
    have h3 := readParamsLoopF_ok_end (s.input.length + 1) s [] buf
      (by omega)
      (by rw [show readParamsLoopF (s.input.length + 1) s [] =
        readParamsLoop s [] from rfl, hq])
    rw [show readParamsLoopF (s.input.length + 1) s [] =
      readParamsLoop s [] from rfl, hq] at h3
    exact h3


theorem utf8Len_nil : utf8Len [] = 0 := rfl

theorem prefixIf_spec (c : Prop) [Decidable c] (s : ScanState) :
    ∃ rP tP, (if c then readPrefix s
      else ((.ok ([] : Str) : Except RErr Str), unread s)) = (rP, tP) ∧
      (WF s → Steps s tP) := by
  by_cases hc : c
  · rw [if_pos hc]
    exact ⟨(readPrefix s).1, (readPrefix s).2, rfl,
      fun h => steps_readPrefix h⟩
  · rw [if_neg hc]
    exact ⟨.ok [], unread s, rfl, fun h => steps_unread h⟩

theorem nextMsg_ok_raw {s0 : ScanState} {m : Message} {s2 : ScanState}
    (h : nextMsg s0 = ((m, none), s2)) :
    s0.input = m.Raw ++ s2.input ∧
    (∃ pre, m.Raw = pre ++ ['\r', '\n']) ∧
    utf8Len m.Raw ≤ maxMessageSize + maxMessageSize := by
  unfold nextMsg at h
  rcases h1 : read { s0 with rawBuf := [], msgSize := 0 } with ⟨r1, t1⟩
  rw [h1] at h
  have hS1 : Steps { s0 with rawBuf := [], msgSize := 0 } t1 := by
    have h4 := steps_read { s0 with rawBuf := [], msgSize := 0 }
    rw [h1] at h4
    exact h4
  cases r1 with
  | error e => simp at h
  | ok ch0 =>
    simp only at h
    have htr1 : t1.rawBuf ++ t1.input = s0.input := by
      have h4 := hS1.tr
      simpa using h4
    have hbd1 : utf8Len t1.rawBuf = t1.msgSize := by
      have h4 := hS1.bd
      simp only [utf8Len_nil] at h4
      omega
    by_cases hat : ch0 = '@'
    · rw [if_pos hat] at h
      rcases h2 : readTags t1 with ⟨r2, u⟩
      rw [h2] at h
      have hS2 : Steps t1 u := by
        have h4 := steps_readTags hS1.wf
        rw [h2] at h4
        exact h4
      cases r2 with
      | error e => simp at h
      | ok tags =>
        simp only at h
        rcases h3 : read { u with msgSize := 0 } with ⟨r3, u2⟩
        rw [h3] at h
        have hS3 : Steps { u with msgSize := 0 } u2 := by
          have h4 := steps_read { u with msgSize := 0 }
          rw [h3] at h4
          exact h4
        cases r3 with
        | error e3 =>
          cases e3 <;> simp at h
        | ok ch1 =>
          simp only at h
          have hwfA : WF u2 := hS3.wf
          have hUsize : u.msgSize ≤ maxMessageSize := by
            have ht1m : t1.msgSize ≤ maxMessageSize := by
              have h4 := read_ok_le
                (s := { s0 with rawBuf := [], msgSize := 0 })
                (c := ch0) (by rw [h1])
              rw [h1] at h4
              exact h4
            have h4 := readTags_ok_size (s := t1) (m := tags) ht1m
              (by rw [h2])
            rw [h2] at h4
            exact h4
          have hULen : utf8Len u.rawBuf = u.msgSize := by
            have h4 := hS2.bd
            omega
          have htrA : u2.rawBuf ++ u2.input = s0.input := by
            have h4 := hS3.tr
            simp only at h4
            rw [h4, hS2.tr]
            exact htr1
          have hbdA : utf8Len u2.rawBuf ≤ maxMessageSize + u2.msgSize := by
            have h4 := hS3.bd
            simp only at h4
            omega
          obtain ⟨rP, tP, hPeq, hPst⟩ := prefixIf_spec (ch1 = ':') u2
          rw [hPeq] at h
          have hSP : Steps u2 tP := hPst hwfA
          cases rP with
          | error e =>
            simp at h
          | ok pfx =>
            simp only at h
            rcases hC : readCommand tP with ⟨rC, tC⟩
            rw [hC] at h
            have hSC : Steps tP tC := by
              have h4 := steps_readCommand hSP.wf
              rw [hC] at h4
              exact h4
            cases rC with
            | error e =>
              simp at h
            | ok cmd =>
              simp only at h
              rcases hE : isLineEnd tC with ⟨⟨b, eop⟩, tE⟩
              rw [hE] at h
              have hSE : Steps tC tE := by
                have h4 := steps_isLineEnd hSC.wf
                rw [hE] at h4
                exact h4
              cases eop with
              | some e =>
                cases b <;> simp at h
              | none =>
                cases b with
                | true =>
                  simp only at h
                  injection h with h4 h5
                  injection h4 with h4 h6
                  subst h5
                  subst h4
                  obtain ⟨hraw, hsz⟩ := isLineEnd_true hE
                  have hS : Steps u2 tE := Steps_trans hSP (Steps_trans hSC hSE)
                  refine ⟨?_, ⟨tC.rawBuf, by simp only; exact hraw⟩, ?_⟩
                  · rw [← htrA, ← hS.tr]
                  · have hb := hS.bd
                    simp only
                    omega
                | false =>
                  simp only at h
                  rcases hR : readParams (unread tE) with ⟨rR, tR⟩
                  rw [hR] at h
                  have hSR : Steps tE tR := by
                    refine Steps_trans (steps_unread hSE.wf) ?_
                    have h4 := steps_readParams
                      (wf_of_not_canUnread (unread_canUnread tE))
                    rw [hR] at h4
                    exact h4
                  cases rR with
                  | error e =>
                    simp at h
                  | ok ps =>
                    simp only at h
                    injection h with h4 h5
                    injection h4 with h4 h6
                    subst h5
                    subst h4
                    have hend := @readParams_ok_end (unread tE) ps
                      (by rw [hR])
                    rw [hR] at hend
                    simp only at hend
                    obtain ⟨⟨pre, hraw⟩, hsz⟩ := hend
                    have hS : Steps u2 tR :=
                      Steps_trans hSP (Steps_trans hSC (Steps_trans hSE hSR))
                    refine ⟨?_, ⟨pre, by simp only; exact hraw⟩, ?_⟩
                    · rw [← htrA, ← hS.tr]
                    · have hb := hS.bd
                      simp only
                      omega
    · rw [if_neg hat] at h
      simp only at h
      have hwfA : WF t1 := hS1.wf
      have htrA : t1.rawBuf ++ t1.input = s0.input := htr1
      have hbdA : utf8Len t1.rawBuf ≤ maxMessageSize + t1.msgSize := by
        omega
      obtain ⟨rP, tP, hPeq, hPst⟩ := prefixIf_spec (ch0 = ':') t1
      rw [hPeq] at h
      have hSP : Steps t1 tP := hPst hwfA
      cases rP with
      | error e =>
        simp at h
      | ok pfx =>
        simp only at h
        rcases hC : readCommand tP with ⟨rC, tC⟩
        rw [hC] at h
        have hSC : Steps tP tC := by
          have h4 := steps_readCommand hSP.wf
          rw [hC] at h4
          exact h4
        cases rC with
        | error e =>
          simp at h
        | ok cmd =>
          simp only at h
          rcases hE : isLineEnd tC with ⟨⟨b, eop⟩, tE⟩
          rw [hE] at h
          have hSE : Steps tC tE := by
            have h4 := steps_isLineEnd hSC.wf
            rw [hE] at h4
            exact h4
          cases eop with
          | some e =>
            cases b <;> simp at h
          | none =>
            cases b with
            | true =>
              simp only at h
              injection h with h4 h5
              injection h4 with h4 h6
              subst h5
              subst h4
              obtain ⟨hraw, hsz⟩ := isLineEnd_true hE
              have hS : Steps t1 tE := Steps_trans hSP (Steps_trans hSC hSE)
              refine ⟨?_, ⟨tC.rawBuf, by simp only; exact hraw⟩, ?_⟩
              · rw [← htrA, ← hS.tr]
              · have hb := hS.bd
                simp only
                omega
            | false =>
              simp only at h
              rcases hR : readParams (unread tE) with ⟨rR, tR⟩
              rw [hR] at h
              have hSR : Steps tE tR := by
                refine Steps_trans (steps_unread hSE.wf) ?_
                have h4 := steps_readParams
                  (wf_of_not_canUnread (unread_canUnread tE))
                rw [hR] at h4
                exact h4
              cases rR with
              | error e =>
                simp at h
              | ok ps =>
                simp only at h
                injection h with h4 h5
                injection h4 with h4 h6
                subst h5
                subst h4
                have hend := @readParams_ok_end (unread tE) ps
                  (by rw [hR])
                rw [hR] at hend
                simp only at hend
                obtain ⟨⟨pre, hraw⟩, hsz⟩ := hend
                have hS : Steps t1 tR :=
                  Steps_trans hSP (Steps_trans hSC (Steps_trans hSE hSR))
                refine ⟨?_, ⟨pre, by simp only; exact hraw⟩, ?_⟩
                · rw [← htrA, ← hS.tr]
                · have hb := hS.bd
                  simp only
                  omega


/-- C8: for every Message produced by a successful scan step, `Raw`
equals the exact input text consumed for that message (the input at the
start of the step is `Raw` followed by the remaining stream), `Raw`
ends with the two-character carriage-return/line-feed terminator, and
its byte length — with or without the terminator — never exceeds the
sum of the two independently budgeted 512-unit segments. -/
theorem C8_thm (s0 : ScanState) (m : Message) (s2 : ScanState)
    (h : nextMsg s0 = ((m, none), s2)) :
    s0.input = m.Raw ++ s2.input ∧
    (∃ pre, m.Raw = pre ++ ['\r', '\n']) ∧
    utf8Len m.Raw ≤ maxMessageSize + maxMessageSize ∧
    (∀ pre : Str, m.Raw = pre ++ ['\r', '\n'] →
      utf8Len pre ≤ maxMessageSize + maxMessageSize) := by
  obtain ⟨h1, h2, h3⟩ := nextMsg_ok_raw h
  refine ⟨h1, h2, h3, ?_⟩
  intro pre hpre
  rw [hpre, utf8Len_append] at h3
  omega

/-- C8 witness: the theorem applied to the concrete input
`"FOO\r\n"`. -/
theorem C8_witness :
    (mkState "FOO\r\n".toList).input =
      ({ Raw := "FOO\r\n".toList, Tags := none, Prefix := [], Command := "FOO".toList, Params := [] } : Message).Raw ++
        ({ input := [], rawBuf := "FOO\r\n".toList, msgSize := 5, lastSize := 1, lastChar := '\n', canUnread := true } : ScanState).input ∧
    (∃ pre, ({ Raw := "FOO\r\n".toList, Tags := none, Prefix := [], Command := "FOO".toList, Params := [] } : Message).Raw = pre ++ ['\r', '\n']) ∧
    utf8Len ({ Raw := "FOO\r\n".toList, Tags := none, Prefix := [], Command := "FOO".toList, Params := [] } : Message).Raw ≤ maxMessageSize + maxMessageSize ∧
    (∀ pre : Str, ({ Raw := "FOO\r\n".toList, Tags := none, Prefix := [], Command := "FOO".toList, Params := [] } : Message).Raw = pre ++ ['\r', '\n'] →
      utf8Len pre ≤ maxMessageSize + maxMessageSize) :=
  C8_thm (mkState "FOO\r\n".toList)
    { Raw := "FOO\r\n".toList, Tags := none, Prefix := [], Command := "FOO".toList, Params := [] }
    { input := [], rawBuf := "FOO\r\n".toList, msgSize := 5, lastSize := 1, lastChar := '\n', canUnread := true }
    (by decide)

end IrcMessage
